import Mathlib

/-!
Shallow embedding of `extract.py` (version 1.2.0), a PDF field-extraction
script: normalizers, per-type validators, a table-based and a line-based
extractor, a per-document reconciler with write-once semantics and early
termination, and a final sanitizer pass.  Strings are modelled over
`List Char`; Python regular expressions are modelled by explicit matching
functions with existence-of-match (search) semantics; the PDF library is
modelled by passing page contents (table grids and text) directly, and a
document that fails to open is an `Except.error` carrying the message.
-/

namespace Extract

/-! ### Character classes (ASCII models of Python character classes) -/

/-- The non-breaking space character U+00A0, replaced by `norm`. -/
def nbsp : Char := Char.ofNat 160

/-- Characters matched by the Python regex class recognizing space or tab,
used by the run-collapsing step of `norm`. -/
def isSpaceTab (c : Char) : Bool := c = ' ' || c = '\t'

/-- Model of Python whitespace (regex class for whitespace, and the
character set stripped by `str.strip`): the ASCII whitespace characters
plus the non-breaking space.  Exotic Unicode space code points are not
modelled. -/
def isPyWS (c : Char) : Bool :=
  c = ' ' || c = '\t' || c = '\n' || c = '\r' ||
  c = Char.ofNat 11 || c = Char.ofNat 12 || c = nbsp

/-- Model of Python `str.lower` on the ASCII range: uppercase letters map
to their lowercase counterparts, all other characters are unchanged. -/
def lowerChar (c : Char) : Char :=
  match c with
  | 'A' => 'a' | 'B' => 'b' | 'C' => 'c' | 'D' => 'd' | 'E' => 'e'
  | 'F' => 'f' | 'G' => 'g' | 'H' => 'h' | 'I' => 'i' | 'J' => 'j'
  | 'K' => 'k' | 'L' => 'l' | 'M' => 'm' | 'N' => 'n' | 'O' => 'o'
  | 'P' => 'p' | 'Q' => 'q' | 'R' => 'r' | 'S' => 's' | 'T' => 't'
  | 'U' => 'u' | 'V' => 'v' | 'W' => 'w' | 'X' => 'x' | 'Y' => 'y'
  | 'Z' => 'z'
  | c => c

/-- Word characters for the Python regex word-boundary: ASCII letters,
digits, and underscore. -/
def isWordChar (c : Char) : Bool := c.isAlphanum || c = '_'

/-- Decimal digit, the regex digit class (ASCII model). -/
def isDigitChar (c : Char) : Bool := c.isDigit

/-- The date separators accepted by the date patterns. -/
def isSepChar (c : Char) : Bool := c = '-' || c = '/'

/-! ### List-of-characters utilities -/

/-- Replace every maximal run of characters satisfying `p` by a single
space: the model of a regex substitution of a character-class run by a
single space. -/
def collapseRuns (p : Char → Bool) : List Char → List Char
  | [] => []
  | c :: cs =>
    if p c then
      match cs with
      | [] => [' ']
      | c2 :: _ => if p c2 then collapseRuns p cs else ' ' :: collapseRuns p cs
    else c :: collapseRuns p cs

/-- Drop characters satisfying `p` from both ends: the model of
`str.strip`. -/
def stripEnds (p : Char → Bool) (l : List Char) : List Char :=
  List.rdropWhile p (l.dropWhile p)

/-- Does `l` start with `pre` (exact character match)? -/
def startsWithChars : List Char → List Char → Bool
  | _, [] => true
  | [], _ :: _ => false
  | c :: cs, p :: ps => c = p && startsWithChars cs ps

/-- Case-insensitive literal prefix match: returns the remainder of `cs`
after the prefix `pre`, comparing characters through `lowerChar`. -/
def dropPrefixCI : List Char → List Char → Option (List Char)
  | [], cs => some cs
  | _ :: _, [] => none
  | p :: ps, c :: cs => if lowerChar c = lowerChar p then dropPrefixCI ps cs else none

/-- Require exactly `n` consecutive characters satisfying `p`; on success
return the remaining characters. -/
def takeExact (p : Char → Bool) : Nat → List Char → Option (List Char)
  | 0, cs => some cs
  | _ + 1, [] => none
  | n + 1, c :: cs => if p c then takeExact p n cs else none

/-- Require one date separator character; on success return the rest. -/
def expectSep : List Char → Option (List Char)
  | [] => none
  | c :: cs => if isSepChar c then some cs else none

/-! ### Normalizer (`norm`, `norm_label`, `is_nullish`) -/

/-- Character-level body of `norm`: replace non-breaking spaces by spaces,
collapse space/tab runs to a single space, strip both ends. -/
def normChars (l : List Char) : List Char :=
  stripEnds isPyWS (collapseRuns isSpaceTab (l.map fun c => if c = nbsp then ' ' else c))

/-- `norm` from the source: non-breaking spaces replaced, space/tab runs
collapsed to one space, ends stripped. -/
def norm (s : String) : String := ⟨normChars s.data⟩

/-- Character-level body of `norm_label`: `normChars`, lowercase, drop
trailing colons, collapse every whitespace run to a single space. -/
def normLabelChars (l : List Char) : List Char :=
  collapseRuns isPyWS (List.rdropWhile (fun c => c = ':') ((normChars l).map lowerChar))

/-- `norm_label` from the source: the comparison key used for label
matching everywhere. -/
def norm_label (s : String) : String := ⟨normLabelChars s.data⟩

/-- Lowercase a whole string through `lowerChar`. -/
def lowerStr (s : String) : String := ⟨s.data.map lowerChar⟩

/-- `str.strip` on a `String`. -/
def pyStrip (s : String) : String := ⟨stripEnds isPyWS s.data⟩

/-- The sentinel phrase marking an explicitly absent value. -/
def noValuePhrase : String := "no value to display"

/-- `is_nullish` from the source: empty, or whitespace only, or the
stripped lowercased value starts with the sentinel phrase. -/
def is_nullish (s : String) : Bool :=
  s = "" || pyStrip s = "" ||
    startsWithChars ((stripEnds isPyWS s.data).map lowerChar) noValuePhrase.data

/-! ### Date patterns

The three regular expressions of `DATE_PATTERNS` are modelled by explicit
matchers with regex-search semantics: a pattern matches a string iff it
matches at some position, with word boundaries at both ends of the match.
-/

/-- Word-boundary test against the character preceding the match position
(`none` at the start of the string). -/
def boundaryBeforeChars (prev : Option Char) : Bool :=
  match prev with
  | none => true
  | some c => !isWordChar c

/-- Word-boundary test after the match: the remainder must be empty or
start with a non-word character. -/
def boundaryAfterChars (rest : List Char) : Bool :=
  match rest with
  | [] => true
  | c :: _ => !isWordChar c

/-- Try a pattern body at every position, tracking the preceding character
for the leading word boundary: the model of a regex search. -/
def searchAux (m : List Char → Bool) : Option Char → List Char → Bool
  | prev, [] => boundaryBeforeChars prev && m []
  | prev, c :: rest =>
    (boundaryBeforeChars prev && m (c :: rest)) || searchAux m (some c) rest

/-- Search for the pattern body `m` anywhere in `cs` (leading word
boundary included). -/
def regexSearch (m : List Char → Bool) (cs : List Char) : Bool :=
  searchAux m none cs

/-- The month abbreviations of the first date pattern, lowercased. -/
def monthAbbrevs : List (List Char) :=
  ["jan", "feb", "mar", "apr", "may", "jun", "jul", "aug",
   "sep", "sept", "oct", "nov", "dec"].map String.data

/-- Continue a pattern after a component that may fail: fail on `none`,
feed the remainder to the continuation otherwise. -/
def optStep (o : Option (List Char)) (k : List Char → Bool) : Bool :=
  match o with
  | none => false
  | some r => k r

/-- Body of the first date pattern after the leading boundary: a 1-2 digit
day, a separator, a month abbreviation with any following letters, a
separator, a 4-digit year, and a trailing boundary. -/
def pat1Tail (a : Nat) (mon : List Char) (cs : List Char) : Bool :=
  optStep (takeExact isDigitChar a cs) fun r1 =>
    optStep (expectSep r1) fun r2 =>
      optStep (dropPrefixCI mon r2) fun r3 =>
        optStep (expectSep (r3.dropWhile Char.isAlpha)) fun r5 =>
          optStep (takeExact isDigitChar 4 r5) fun r6 => boundaryAfterChars r6

/-- First date pattern (day, month name, 4-digit year) at one position. -/
def pat1At (cs : List Char) : Bool :=
  [1, 2].any fun a => monthAbbrevs.any fun mon => pat1Tail a mon cs

/-- Body of the second (numeric) date pattern at one position with chosen
digit-run lengths `a`, `b`, `y`. -/
def pat2Tail (a b y : Nat) (cs : List Char) : Bool :=
  optStep (takeExact isDigitChar a cs) fun r1 =>
    optStep (expectSep r1) fun r2 =>
      optStep (takeExact isDigitChar b r2) fun r3 =>
        optStep (expectSep r3) fun r4 =>
          optStep (takeExact isDigitChar y r4) fun r5 => boundaryAfterChars r5

/-- Second date pattern (1-2 digit day and month, 2-to-4 digit year) at
one position: the regex quantifier on the year run spans 2 to 4. -/
def pat2At (cs : List Char) : Bool :=
  [1, 2].any fun a => [1, 2].any fun b => [2, 3, 4].any fun y => pat2Tail a b y cs

/-- The third (ISO-like) date pattern at one position: 4-digit year,
2-digit month, 2-digit day. -/
def pat3At (cs : List Char) : Bool :=
  optStep (takeExact isDigitChar 4 cs) fun r1 =>
    optStep (expectSep r1) fun r2 =>
      optStep (takeExact isDigitChar 2 r2) fun r3 =>
        optStep (expectSep r3) fun r4 =>
          optStep (takeExact isDigitChar 2 r4) fun r5 => boundaryAfterChars r5

/-! ### Validators -/

/-- `is_date`: non-nullish and some date pattern occurs somewhere in the
normalized candidate. -/
def is_date (s : String) : Bool :=
  if is_nullish s then false
  else
    regexSearch pat1At (norm s).data || regexSearch pat2At (norm s).data ||
      regexSearch pat3At (norm s).data

/-- `is_digits`: non-nullish and the entire string is decimal digits. -/
def is_digits (s : String) : Bool :=
  if is_nullish s then false
  else !s.data.isEmpty && s.data.all isDigitChar

/-- `is_year`: non-nullish and exactly four digits starting 19 or 20. -/
def is_year (s : String) : Bool :=
  if is_nullish s then false
  else
    match s.data with
    | [a, b, c, d] =>
      ((a = '1' && b = '9') || (a = '2' && b = '0')) && isDigitChar c && isDigitChar d
    | _ => false

/-- `is_alnum`: non-nullish and only ASCII letters, digits, hyphen,
underscore. -/
def is_alnum (s : String) : Bool :=
  if is_nullish s then false
  else !s.data.isEmpty && s.data.all fun c => c.isAlphanum || c = '-' || c = '_'

/-- `is_age`: non-nullish and contains at least one digit. -/
def is_age (s : String) : Bool :=
  if is_nullish s then false
  else s.data.any isDigitChar

/-- `is_text`: any non-nullish value. -/
def is_text (s : String) : Bool :=
  if is_nullish s then false else true

/-- The six declared field types of the schema. -/
inductive FType where
  | digits | year | date | alnum | age | text
deriving DecidableEq, Repr

/-- The `VALIDATORS` dispatch table: validator selected by field type. -/
def validate : FType → String → Bool
  | .date, s => is_date s
  | .digits, s => is_digits s
  | .year, s => is_year s
  | .alnum, s => is_alnum s
  | .age, s => is_age s
  | .text, s => is_text s

/-! ### Schema -/

/-- One schema entry: canonical output name, accepted label spellings, and
the expected value type. -/
structure FieldSpec where
  name : String
  variants : List String
  ftype : FType
deriving DecidableEq, Repr

/-- `FIELD_SCHEMA` from the source, in declaration order. -/
def FIELD_SCHEMA : List FieldSpec :=
  [⟨"Site Number", ["Site Number", "Site No", "Site ID", "Derived Site ID"], .digits⟩,
   ⟨"Subject", ["Subject", "Subject ID"], .alnum⟩,
   ⟨"Birth Year", ["Birth Year", "Year of Birth", "YOB"], .year⟩,
   ⟨"Age", ["Age"], .age⟩,
   ⟨"Sex Reported at Birth", ["Sex Reported at Birth"], .text⟩,
   ⟨"First Informed Consent Date",
    ["First Informed Consent Date", "Informed Consent Date", "First Consent Date"], .date⟩,
   ⟨"Randomization/Allocation Date",
    ["Randomization/Allocation Date", "Randomization Date", "Allocation Date",
     "Randomization / Allocation Date"], .date⟩,
   ⟨"Randomization/Allocation Number",
    ["Randomization/Allocation Number", "Randomization Number", "Allocation Number",
     "Randomization / Allocation Number"], .digits⟩,
   ⟨"Cohort", ["Cohort", "Cohort Assignment"], .text⟩,
   ⟨"Date of Component ID Assignment",
    ["Date of Component ID Assignment", "Component ID Assignment Date",
     "Date of Component Assignment"], .date⟩,
   ⟨"Component ID", ["Component ID", "Component Identifier", "ComponentID"], .digits⟩]

/-- `label_matches`: the normalized-label key of the cell equals the key
of some alias. -/
def label_matches (cell_text : String) (variants : List String) : Bool :=
  variants.any fun v => norm_label cell_text = norm_label v

/-- The `same_as_any_variant` guard shared by both extractors: the value's
normalized-label key equals the key of some alias. -/
def sameAsAnyVariant (value : String) (variants : List String) : Bool :=
  variants.any fun v => norm_label value = norm_label v

/-! ### Table-based extractor -/

/-- The per-call result mapping of an extractor: canonical field name to
an optional value, all unset initially. -/
def Fields : Type := String → Option String

/-- The all-unset result every extraction starts from. -/
def initFields : Fields := fun _ => none

/-- Update one slot of a result mapping. -/
def setField (f : Fields) (key : String) (v : Option String) : Fields :=
  fun k => if k = key then v else f k

/-- A detected table row: cells may be absent (`none`) or strings. -/
def Row : Type := List (Option String)

/-- The normalized present cells of a row. -/
def rowCells (row : Row) : List String :=
  (row.filterMap id).map norm

/-- Examination of one (label, value) pairing against one schema field, as
in the inner loop of `extract_from_tables`: skip when the field is already
claimed in this call, when the label matches no alias, when the value's
key equals the label's key or any alias's key, or when the normalized
value is nullish or fails the type validator; otherwise claim the field. -/
def stepField (found : Fields) (spec : FieldSpec) (labelCell valueCell : String) : Fields :=
  if (found spec.name).isSome then found
  else if label_matches labelCell spec.variants then
    if norm_label valueCell = norm_label labelCell then found
    else if sameAsAnyVariant valueCell spec.variants then found
    else
      let val := norm valueCell
      if !is_nullish val && validate spec.ftype val then
        setField found spec.name (some val)
      else found
  else found

/-- Run one (label, value) pairing over every schema field in order. -/
def processRowFields (found : Fields) (schema : List FieldSpec)
    (labelCell valueCell : String) : Fields :=
  schema.foldl (fun f spec => stepField f spec labelCell valueCell) found

/-- Process one table row: skip empty rows and generic header rows, take
the first non-empty cell as label and the last as value, then examine the
pairing against every field. -/
def processRow (found : Fields) (schema : List FieldSpec) (row : Row) : Fields :=
  if row.isEmpty then found
  else if (rowCells row).length < 1 then found
  else
    if lowerStr (norm ((rowCells row).headD "")) = "item" ∨
        lowerStr (norm ((rowCells row).headD "")) = "field" ∨
        lowerStr (norm ((rowCells row).headD "")) = "parameter" then
      found
    else
      match (rowCells row).find? (fun c => c ≠ ""),
          (rowCells row).reverse.find? (fun c => c ≠ "") with
      | some labelCell, some valueCell => processRowFields found schema labelCell valueCell
      | _, _ => found

/-- `extract_from_tables`: fold every row of every detected table of one
page over an initially unset result.  Table decoding itself (and its
non-fatal failure mode, which yields no tables) is external: the page's
detected tables are the input. -/
def extract_from_tables (tables : List (List Row)) (schema : List FieldSpec) : Fields :=
  tables.foldl (fun found tbl => tbl.foldl (fun f row => processRow f schema row) found)
    initFields

/-! ### Line-based extractor -/

/-- Model of the per-line regex of `value_after_label_by_lines`: optional
leading whitespace, the label literally (case-insensitive), a word
boundary, a greedy run of colons/whitespace, then a non-empty remainder.
When the greedy run would leave an empty remainder the regex engine backs
off one character, so a line ending right after the separators yields the
final separator character as the captured remainder. -/
def matchLabelLine (label : List Char) (ln : List Char) : Option (List Char) :=
  match dropPrefixCI label (ln.dropWhile isPyWS) with
  | none => none
  | some rest =>
    if (match label.getLast? with | some c => isWordChar c | none => false) !=
        (match rest.head? with | some c => isWordChar c | none => false) then
      match rest.dropWhile (fun c => c = ':' || isPyWS c) with
      | [] =>
        match rest.getLast? with
        | none => none
        | some c => some [c]
      | r :: rs => some (r :: rs)
    else none

/-- `value_after_label_by_lines`: the normalized captured remainder of the
first line matching the label, if any. -/
def value_after_label_by_lines : List String → String → Option String
  | [], _ => none
  | ln :: rest, label =>
    match matchLabelLine label.data ln.data with
    | some g => some (norm ⟨g⟩)
    | none => value_after_label_by_lines rest label

/-- The per-field alias loop of `extract_from_lines`: try each alias in
declared order; reject an empty capture, a capture whose key equals the
alias's own key or any alias's key, and captures failing the validator;
the first accepted capture wins. -/
def tryVariants (lines : List String) (spec : FieldSpec) : List String → Option String
  | [] => none
  | v :: rest =>
    match value_after_label_by_lines lines v with
    | none => tryVariants lines spec rest
    | some val =>
      if val = "" then tryVariants lines spec rest
      else if norm_label val = norm_label v then tryVariants lines spec rest
      else if sameAsAnyVariant val spec.variants then tryVariants lines spec rest
      else if validate spec.ftype val then some val
      else tryVariants lines spec rest

/-- Split a character list at newline characters (the model of
`str.splitlines` for newline-separated text). -/
def splitAtNewlines : List Char → List (List Char)
  | [] => [[]]
  | c :: cs =>
    if c = '\n' then [] :: splitAtNewlines cs
    else
      match splitAtNewlines cs with
      | [] => [[c]]
      | x :: xs => (c :: x) :: xs

/-- The non-empty normalized lines of a page's text. -/
def pageLines (text : String) : List String :=
  (splitAtNewlines text.data).filterMap fun ln =>
    if stripEnds isPyWS ln = [] then none else some (norm ⟨ln⟩)

/-- `extract_from_lines`: for each still-unset field, scan the page's
lines for each alias in declared order. -/
def extract_from_lines (text : String) (schema : List FieldSpec) : Fields :=
  schema.foldl
    (fun found spec =>
      if (found spec.name).isSome then found
      else
        match tryVariants (pageLines text) spec spec.variants with
        | some val => setField found spec.name (some val)
        | none => found)
    initFields

/-! ### Per-document reconciler -/

/-- One page of an opened document: its detected table grids and its
extracted text. -/
structure Page where
  tables : List (List Row)
  pageText : String

/-- Merge one extractor's page result into the document result: a slot is
written only when the candidate is a non-empty value and the slot is still
unset (write-once). -/
def mergeFound (schema : List FieldSpec) (result : Fields) (vals : Fields) : Fields :=
  schema.foldl
    (fun r spec =>
      match vals spec.name with
      | some v => if v ≠ "" && (r spec.name).isNone then setField r spec.name (some v) else r
      | none => r)
    result

/-- Process one page: tables first, then lines, each merged write-once. -/
def processPage (schema : List FieldSpec) (result : Fields) (page : Page) : Fields :=
  mergeFound schema (mergeFound schema result (extract_from_tables page.tables schema))
    (extract_from_lines page.pageText schema)

/-- Are all schema fields resolved? -/
def allResolved (schema : List FieldSpec) (r : Fields) : Bool :=
  schema.all fun spec => (r spec.name).isSome

/-- Page iteration of `extract_fields_from_pdf`: after each page, stop
early once every field is resolved. -/
def processPages (schema : List FieldSpec) : Fields → List Page → Fields
  | result, [] => result
  | result, p :: rest =>
    let r := processPage schema result p
    if allResolved schema r then r else processPages schema r rest

/-- A document as the reconciler sees it: either it opens to a list of
pages, or opening/parsing raises with a message. -/
def PdfDoc : Type := Except String (List Page)

/-- `extract_fields_from_pdf`: on a parse failure record the sentinel
error string in the "Component ID" slot of the otherwise-empty result;
otherwise accumulate over pages with write-once semantics and early
termination. -/
def extract_fields_from_pdf (doc : PdfDoc) (schema : List FieldSpec) : Fields :=
  match doc with
  | .error e => setField initFields "Component ID" (some ("ERROR: " ++ e))
  | .ok pages => processPages schema initFields pages

/-! ### Post-pass sanitizer (final cleanup loop of `main`) -/

/-- The `_key` reduction of the final cleanup: drop the trailing run of
colons/whitespace, strip, lowercase. -/
def pykey (s : String) : String :=
  ⟨(stripEnds isPyWS (List.rdropWhile (fun c => c = ':' || isPyWS c) s.data)).map lowerChar⟩

/-- The fixed null-token set of the final cleanup. -/
def NULL_TOKENS : List String := ["no value to display", "n/a", "na", "-", "--", "null"]

/-- Sanitize one stored cell of one schema column: null it when its
`pykey` reduction matches the column name or any alias under the same
reduction, or when its stripped lowercase form is a null token. -/
def sanitizeCell (name : String) (variants : List String) (cell : Option String) :
    Option String :=
  match cell with
  | none => none
  | some s =>
    if pykey s ∈ pykey name :: variants.map pykey then none
    else if (⟨(stripEnds isPyWS s.data).map lowerChar⟩ : String) ∈ NULL_TOKENS then none
    else some s

/-! ### Guard lemmas for the table extractor -/

theorem stepField_preserve (found : Fields) (spec : FieldSpec) (lc vc k : String)
    (h : spec.name ≠ k ∨ norm_label vc = norm_label lc ∨
      sameAsAnyVariant vc spec.variants = true ∨ label_matches lc spec.variants = false) :
    stepField found spec lc vc k = found k := by
  unfold stepField
  by_cases hA : (found spec.name).isSome
  · simp [hA]
  by_cases hB : label_matches lc spec.variants = true
  · by_cases hC : norm_label vc = norm_label lc
    · simp [hA, hB, hC]
    · by_cases hD : sameAsAnyVariant vc spec.variants = true
      · simp [hA, hB, hC, hD]
      · have hne : spec.name ≠ k := by
          rcases h with h | h | h | h
          · exact h
          · exact absurd h hC
          · exact absurd h hD
          · rw [h] at hB
            exact Bool.noConfusion hB
        by_cases hE : (!is_nullish (norm vc) && validate spec.ftype (norm vc)) = true
        · simp [hA, hB, hC, hD, hE, setField, Ne.symm hne]
        · simp [hA, hB, hC, hD, hE]
  · simp only [Bool.not_eq_true] at hB
    simp [hA, hB]

theorem foldl_stepField_preserve (found : Fields) (sub : List FieldSpec) (lc vc k : String)
    (h : ∀ spec ∈ sub, spec.name ≠ k ∨ norm_label vc = norm_label lc ∨
      sameAsAnyVariant vc spec.variants = true ∨ label_matches lc spec.variants = false) :
    (sub.foldl (fun f spec => stepField f spec lc vc) found) k = found k := by
  induction sub generalizing found with
  | nil => rfl
  | cons s rest ih =>
    simp only [List.foldl_cons]
    rw [ih _ fun spec hm => h spec (List.mem_cons_of_mem _ hm)]
    exact stepField_preserve _ _ _ _ _ (h s (List.mem_cons_self _ _))

theorem field_schema_name_inj :
    ∀ s1 ∈ FIELD_SCHEMA, ∀ s2 ∈ FIELD_SCHEMA, s1.name = s2.name → s1 = s2 := by decide

/-! ### Write-once preservation lemmas -/

theorem mergeFound_preserve (schema : List FieldSpec) (r vals : Fields) (k : String)
    (w : String) (h : r k = some w) : mergeFound schema r vals k = some w := by
  induction schema generalizing r with
  | nil => simpa [mergeFound] using h
  | cons spec rest ih =>
    have hstep :
        (match vals spec.name with
          | some v => if v ≠ "" && (r spec.name).isNone then setField r spec.name (some v) else r
          | none => r) k = some w := by
      cases hv : vals spec.name with
      | none => simpa using h
      | some v =>
        by_cases hr : r spec.name = none
        · have hne : k ≠ spec.name := by
            intro hk
            rw [hk, hr] at h
            exact Option.noConfusion h
          by_cases hv0 : v = ""
          · simp [hv0, h]
          · simp [hv0, hr, setField, hne, h]
        · have : ¬(¬v = "" ∧ r spec.name = none) := fun hc => hr hc.2
          simp only [ne_eq, Bool.and_eq_true, decide_eq_true_eq, Option.isNone_iff_eq_none]
          rw [if_neg this]
          exact h
    simpa [mergeFound, List.foldl_cons] using ih _ hstep

theorem processPage_preserve (schema : List FieldSpec) (r : Fields) (p : Page)
    (k w : String) (h : r k = some w) : processPage schema r p k = some w :=
  mergeFound_preserve _ _ _ _ _ (mergeFound_preserve _ _ _ _ _ h)

theorem processPages_preserve (schema : List FieldSpec) (r : Fields) (ps : List Page)
    (k w : String) (h : r k = some w) : processPages schema r ps k = some w := by
  induction ps generalizing r with
  | nil => simpa [processPages] using h
  | cons p rest ih =>
    have h1 : processPage schema r p k = some w := processPage_preserve _ _ _ _ _ h
    unfold processPages
    by_cases hall : allResolved schema (processPage schema r p) = true
    · simp [hall, h1]
    · simp only [Bool.not_eq_true] at hall
      simp [hall, ih _ h1]

/-! ### Extractor output invariant -/

theorem foldlPreserve {α β : Type} (P : β → Prop) (step : β → α → β) (l : List α)
    (hstep : ∀ acc x, x ∈ l → P acc → P (step acc x)) (acc : β) (h : P acc) :
    P (l.foldl step acc) := by
  induction l generalizing acc with
  | nil => exact h
  | cons x xs ih =>
    exact ih (fun a y hy => hstep a y (List.mem_cons_of_mem _ hy)) _
      (hstep acc x (List.mem_cons_self _ _) h)

/-- The invariant every extractor result satisfies: any set slot holds a
non-empty, non-nullish value accepted by that field's validator. -/
def FieldsInv (schema : List FieldSpec) (f : Fields) : Prop :=
  ∀ spec ∈ schema, ∀ v, f spec.name = some v →
    v ≠ "" ∧ is_nullish v = false ∧ validate spec.ftype v = true

theorem validate_not_nullish (t : FType) (v : String) (h : validate t v = true) :
    is_nullish v = false := by
  by_cases hn : is_nullish v = true
  · cases t <;> simp [validate, is_date, is_digits, is_year, is_alnum, is_age, is_text, hn] at h
  · simpa [Bool.not_eq_true] using hn

theorem validate_ne_empty (t : FType) (v : String) (h : validate t v = true) : v ≠ "" := by
  intro he
  subst he
  have h1 : is_nullish "" = false := validate_not_nullish t "" h
  have h2 : is_nullish "" = true := by decide
  rw [h1] at h2
  exact Bool.noConfusion h2

theorem initFields_inv (schema : List FieldSpec) : FieldsInv schema initFields := by
  intro spec _ v hv
  exact Option.noConfusion hv

theorem stepField_inv (schema : List FieldSpec)
    (hinj : ∀ s1 ∈ schema, ∀ s2 ∈ schema, s1.name = s2.name → s1 = s2)
    (found : Fields) (spec' : FieldSpec) (hmem : spec' ∈ schema) (lc vc : String)
    (h : FieldsInv schema found) : FieldsInv schema (stepField found spec' lc vc) := by
  intro spec hspec v hv
  unfold stepField at hv
  by_cases hA : (found spec'.name).isSome = true
  · rw [if_pos hA] at hv
    exact h spec hspec v hv
  · rw [if_neg hA] at hv
    by_cases hB : label_matches lc spec'.variants = true
    · rw [if_pos hB] at hv
      by_cases hC : norm_label vc = norm_label lc
      · rw [if_pos hC] at hv
        exact h spec hspec v hv
      · rw [if_neg hC] at hv
        by_cases hD : sameAsAnyVariant vc spec'.variants = true
        · rw [if_pos hD] at hv
          exact h spec hspec v hv
        · rw [if_neg hD] at hv
          by_cases hE : (!is_nullish (norm vc) && validate spec'.ftype (norm vc)) = true
          · rw [if_pos hE] at hv
            by_cases hkey : spec.name = spec'.name
            · have hspeq : spec = spec' := hinj spec hspec spec' hmem hkey
              simp only [setField] at hv
              rw [if_pos hkey] at hv
              have hveq : v = norm vc := (Option.some.injEq _ _).mp hv.symm
              simp only [Bool.and_eq_true, Bool.not_eq_true'] at hE
              rcases hE with ⟨hE1, hE2⟩
              subst hveq
              subst hspeq
              exact ⟨validate_ne_empty _ _ hE2, hE1, hE2⟩
            · simp only [setField] at hv
              rw [if_neg hkey] at hv
              exact h spec hspec v hv
          · rw [if_neg hE] at hv
            exact h spec hspec v hv
    · rw [if_neg hB] at hv
      exact h spec hspec v hv

theorem processRowFields_inv (schema : List FieldSpec)
    (hinj : ∀ s1 ∈ schema, ∀ s2 ∈ schema, s1.name = s2.name → s1 = s2)
    (found : Fields) (lc vc : String) (h : FieldsInv schema found) :
    FieldsInv schema (processRowFields found schema lc vc) :=
  foldlPreserve (FieldsInv schema) _ schema
    (fun acc x hx hacc => stepField_inv schema hinj acc x hx lc vc hacc) found h

theorem processRow_inv (schema : List FieldSpec)
    (hinj : ∀ s1 ∈ schema, ∀ s2 ∈ schema, s1.name = s2.name → s1 = s2)
    (found : Fields) (row : Row) (h : FieldsInv schema found) :
    FieldsInv schema (processRow found schema row) := by
  unfold processRow
  split
  · exact h
  split
  · exact h
  split
  · exact h
  split
  · exact processRowFields_inv schema hinj found _ _ h
  · exact h

theorem extract_from_tables_inv (schema : List FieldSpec)
    (hinj : ∀ s1 ∈ schema, ∀ s2 ∈ schema, s1.name = s2.name → s1 = s2)
    (tables : List (List Row)) : FieldsInv schema (extract_from_tables tables schema) := by
  unfold extract_from_tables
  apply foldlPreserve (FieldsInv schema) _ tables
  · intro acc tbl _ hacc
    apply foldlPreserve (FieldsInv schema) _ tbl
    · intro acc2 row _ hacc2
      exact processRow_inv schema hinj acc2 row hacc2
    · exact hacc
  · exact initFields_inv schema

theorem tryVariants_good (lines : List String) (spec : FieldSpec) (vars : List String)
    (val : String) (h : tryVariants lines spec vars = some val) :
    val ≠ "" ∧ validate spec.ftype val = true := by
  induction vars with
  | nil => exact Option.noConfusion h
  | cons v rest ih =>
    unfold tryVariants at h
    split at h
    · exact ih h
    · split_ifs at h with h0 h1 h2 h3
      · exact ih h
      · exact ih h
      · exact ih h
      · have hveq : val = _ := ((Option.some.injEq _ _).mp h).symm
        rw [hveq]
        exact ⟨h0, h3⟩
      · exact ih h

theorem extract_from_lines_inv (schema : List FieldSpec)
    (hinj : ∀ s1 ∈ schema, ∀ s2 ∈ schema, s1.name = s2.name → s1 = s2)
    (text : String) : FieldsInv schema (extract_from_lines text schema) := by
  unfold extract_from_lines
  apply foldlPreserve (FieldsInv schema) _ schema
  · intro acc spec' hmem hacc
    by_cases hA : (acc spec'.name).isSome = true
    · simpa [hA] using hacc
    · rw [if_neg hA]
      cases htv : tryVariants (pageLines text) spec' spec'.variants with
      | none => exact hacc
      | some val =>
        intro spec hspec v hv
        by_cases hkey : spec.name = spec'.name
        · have hspeq : spec = spec' := hinj spec hspec spec' hmem hkey
          simp only [setField] at hv
          rw [if_pos hkey] at hv
          have hveq : v = val := (Option.some.injEq _ _).mp hv.symm
          rcases tryVariants_good _ _ _ _ htv with ⟨g1, g2⟩
          subst hveq
          subst hspeq
          exact ⟨g1, validate_not_nullish _ _ g2, g2⟩
        · simp only [setField] at hv
          rw [if_neg hkey] at hv
          exact hacc spec hspec v hv
  · exact initFields_inv schema

/-! ### Structure of `collapseRuns` output -/

theorem collapseRuns_cons_pos_nil (p : Char → Bool) (c : Char) (hc : p c = true) :
    collapseRuns p [c] = [' '] := by
  simp [collapseRuns, hc]

theorem collapseRuns_cons_pos_pos (p : Char → Bool) (c c2 : Char) (cs : List Char)
    (hc : p c = true) (hc2 : p c2 = true) :
    collapseRuns p (c :: c2 :: cs) = collapseRuns p (c2 :: cs) := by
  simp [collapseRuns, hc, hc2]

theorem collapseRuns_cons_pos_neg (p : Char → Bool) (c c2 : Char) (cs : List Char)
    (hc : p c = true) (hc2 : p c2 = false) :
    collapseRuns p (c :: c2 :: cs) = ' ' :: collapseRuns p (c2 :: cs) := by
  simp [collapseRuns, hc, hc2]

theorem collapseRuns_cons_neg (p : Char → Bool) (c : Char) (cs : List Char)
    (hc : p c = false) : collapseRuns p (c :: cs) = c :: collapseRuns p cs := by
  simp [collapseRuns, hc]

theorem collapseRuns_eq_nil_iff (p : Char → Bool) (l : List Char) :
    collapseRuns p l = [] ↔ l = [] := by
  induction l with
  | nil => simp [collapseRuns]
  | cons c cs ih =>
    constructor
    · intro h
      cases hc : p c with
      | false => rw [collapseRuns_cons_neg p c cs hc] at h; exact List.noConfusion h
      | true =>
        cases cs with
        | nil => rw [collapseRuns_cons_pos_nil p c hc] at h; exact List.noConfusion h
        | cons c2 cs2 =>
          cases hc2 : p c2 with
          | true =>
            rw [collapseRuns_cons_pos_pos p c c2 cs2 hc hc2] at h
            exact absurd (ih.mp h) (List.cons_ne_nil _ _)
          | false =>
            rw [collapseRuns_cons_pos_neg p c c2 cs2 hc hc2] at h
            exact List.noConfusion h
    · intro h
      exact absurd h (List.cons_ne_nil _ _)

theorem mem_collapseRuns (p : Char → Bool) (l : List Char) (c : Char)
    (h : c ∈ collapseRuns p l) : c ∈ l ∨ c = ' ' := by
  induction l with
  | nil => exact absurd h (by simp [collapseRuns])
  | cons a cs ih =>
    cases ha : p a with
    | false =>
      rw [collapseRuns_cons_neg p a cs ha] at h
      rcases List.mem_cons.mp h with h' | h'
      · exact Or.inl (h' ▸ List.mem_cons_self _ _)
      · rcases ih h' with h'' | h''
        · exact Or.inl (List.mem_cons_of_mem _ h'')
        · exact Or.inr h''
    | true =>
      cases cs with
      | nil =>
        rw [collapseRuns_cons_pos_nil p a ha] at h
        exact Or.inr (by simpa using h)
      | cons a2 cs2 =>
        cases ha2 : p a2 with
        | true =>
          rw [collapseRuns_cons_pos_pos p a a2 cs2 ha ha2] at h
          rcases ih h with h'' | h''
          · exact Or.inl (List.mem_cons_of_mem _ h'')
          · exact Or.inr h''
        | false =>
          rw [collapseRuns_cons_pos_neg p a a2 cs2 ha ha2] at h
          rcases List.mem_cons.mp h with h' | h'
          · exact Or.inr h'
          · rcases ih h' with h'' | h''
            · exact Or.inl (List.mem_cons_of_mem _ h'')
            · exact Or.inr h''

theorem head?_collapseRuns (p : Char → Bool) (l : List Char) (c : Char)
    (hl : l.head? = some c) (hc : p c = false) :
    (collapseRuns p l).head? = some c := by
  cases l with
  | nil => exact Option.noConfusion hl
  | cons a cs =>
    have ha : a = c := by simpa using hl
    subst ha
    rw [collapseRuns_cons_neg p a cs hc]
    rfl

theorem getLast?_collapseRuns (p : Char → Bool) (l : List Char) (c : Char)
    (h : (collapseRuns p l).getLast? = some c) :
    c = ' ' ∨ (l.getLast? = some c ∧ p c = false) := by
  induction l with
  | nil => exact absurd h (by simp [collapseRuns])
  | cons a cs ih =>
    cases ha : p a with
    | true =>
      cases cs with
      | nil =>
        rw [collapseRuns_cons_pos_nil p a ha] at h
        have hc : ' ' = c := by simpa using h
        exact Or.inl hc.symm
      | cons a2 cs2 =>
        cases ha2 : p a2 with
        | true =>
          rw [collapseRuns_cons_pos_pos p a a2 cs2 ha ha2] at h
          rcases ih h with h' | ⟨h1, h2⟩
          · exact Or.inl h'
          · exact Or.inr ⟨by rwa [List.getLast?_cons_cons], h2⟩
        | false =>
          rw [collapseRuns_cons_pos_neg p a a2 cs2 ha ha2] at h
          cases hX : collapseRuns p (a2 :: cs2) with
          | nil => exact absurd ((collapseRuns_eq_nil_iff p _).mp hX) (List.cons_ne_nil _ _)
          | cons x xs =>
            rw [hX, List.getLast?_cons_cons, ← hX] at h
            rcases ih h with h' | ⟨h1, h2⟩
            · exact Or.inl h'
            · exact Or.inr ⟨by rwa [List.getLast?_cons_cons], h2⟩
    | false =>
      rw [collapseRuns_cons_neg p a cs ha] at h
      cases hX : collapseRuns p cs with
      | nil =>
        have hcs : cs = [] := (collapseRuns_eq_nil_iff p cs).mp hX
        subst hcs
        rw [hX] at h
        have hac : a = c := by simpa using h
        subst hac
        exact Or.inr ⟨rfl, ha⟩
      | cons x xs =>
        rw [hX, List.getLast?_cons_cons, ← hX] at h
        rcases ih h with h' | ⟨h1, h2⟩
        · exact Or.inl h'
        · refine Or.inr ⟨?_, h2⟩
          cases cs with
          | nil => exact absurd ((collapseRuns_eq_nil_iff p _).mpr rfl) (hX ▸ List.cons_ne_nil _ _)
          | cons b bs => rwa [List.getLast?_cons_cons]

/-- The sparse-whitespace shape of `collapseRuns` output: every matched
character is a space and no two adjacent characters both match. -/
def SparseWS (p : Char → Bool) (l : List Char) : Prop :=
  (∀ c ∈ l, p c = true → c = ' ') ∧ List.Chain' (fun a b => p a = false ∨ p b = false) l

theorem sparse_collapseRuns (p : Char → Bool) (l : List Char) :
    SparseWS p (collapseRuns p l) := by
  induction l with
  | nil => exact ⟨by simp [collapseRuns], by simp [collapseRuns]⟩
  | cons a cs ih =>
    cases ha : p a with
    | false =>
      rw [collapseRuns_cons_neg p a cs ha]
      refine ⟨?_, ?_⟩
      · intro x hx hpx
        rcases List.mem_cons.mp hx with h' | h'
        · rw [h'] at hpx
          rw [hpx] at ha
          exact Bool.noConfusion ha
        · exact ih.1 x h' hpx
      · rw [List.chain'_cons']
        exact ⟨fun y _ => Or.inl ha, ih.2⟩
    | true =>
      cases cs with
      | nil =>
        rw [collapseRuns_cons_pos_nil p a ha]
        exact ⟨fun x hx _ => by simpa using hx, List.chain'_singleton _⟩
      | cons a2 cs2 =>
        cases ha2 : p a2 with
        | true => rw [collapseRuns_cons_pos_pos p a a2 cs2 ha ha2]; exact ih
        | false =>
          rw [collapseRuns_cons_pos_neg p a a2 cs2 ha ha2]
          refine ⟨?_, ?_⟩
          · intro x hx hpx
            rcases List.mem_cons.mp hx with h' | h'
            · exact h'
            · exact ih.1 x h' hpx
          · rw [List.chain'_cons']
            refine ⟨?_, ih.2⟩
            intro y hy
            have hhd : (collapseRuns p (a2 :: cs2)).head? = some a2 :=
              head?_collapseRuns p (a2 :: cs2) a2 rfl ha2
            rw [hhd] at hy
            have hya : a2 = y := by simpa using hy
            rw [← hya]
            exact Or.inr ha2

theorem collapseRuns_eq_self (q : Char → Bool) (_hq : q ' ' = true) (l : List Char)
    (h : SparseWS q l) : collapseRuns q l = l := by
  induction l with
  | nil => rfl
  | cons a cs ih =>
    rcases h with ⟨hmem, hch⟩
    cases ha : q a with
    | false =>
      rw [collapseRuns_cons_neg q a cs ha]
      rw [ih ⟨fun x hx => hmem x (List.mem_cons_of_mem _ hx), (List.chain'_cons'.mp hch).2⟩]
    | true =>
      have ha' : a = ' ' := hmem a (List.mem_cons_self _ _) ha
      cases cs with
      | nil =>
        rw [collapseRuns_cons_pos_nil q a ha, ha']
      | cons a2 cs2 =>
        have hrel := (List.chain'_cons.mp hch).1
        have ha2 : q a2 = false := by
          rcases hrel with h' | h'
          · rw [ha] at h'
            exact Bool.noConfusion h'
          · exact h'
        rw [collapseRuns_cons_pos_neg q a a2 cs2 ha ha2, ha']
        rw [ih ⟨fun x hx => hmem x (List.mem_cons_of_mem _ hx), (List.chain'_cons.mp hch).2⟩]

theorem sparse_mono (p q : Char → Bool) (hpq : ∀ c, q c = true → p c = true)
    (l : List Char) (h : SparseWS p l) : SparseWS q l := by
  refine ⟨fun c hc hqc => h.1 c hc (hpq c hqc), h.2.imp ?_⟩
  intro a b hr
  rcases hr with hr | hr
  · left
    cases hqa : q a with
    | false => rfl
    | true => rw [hpq a hqa] at hr; exact Bool.noConfusion hr
  · right
    cases hqb : q b with
    | false => rfl
    | true => rw [hpq b hqb] at hr; exact Bool.noConfusion hr

theorem map_eq_self_of (f : Char → Char) (l : List Char) (h : ∀ c ∈ l, f c = c) :
    l.map f = l := by
  induction l with
  | nil => rfl
  | cons a cs ih =>
    rw [List.map_cons, h a (List.mem_cons_self _ _),
      ih fun c hc => h c (List.mem_cons_of_mem _ hc)]

theorem lowerChar_cases (d : Char) :
    lowerChar d = d ∨ lowerChar d ∈
      ['a', 'b', 'c', 'd', 'e', 'f', 'g', 'h', 'i', 'j', 'k', 'l', 'm',
       'n', 'o', 'p', 'q', 'r', 's', 't', 'u', 'v', 'w', 'x', 'y', 'z'] := by
  unfold lowerChar
  split <;> first | (left; rfl) | decide

theorem lowerChar_idem (c : Char) : lowerChar (lowerChar c) = lowerChar c := by
  have fixlow : ∀ d ∈ ['a', 'b', 'c', 'd', 'e', 'f', 'g', 'h', 'i', 'j', 'k', 'l', 'm',
      'n', 'o', 'p', 'q', 'r', 's', 't', 'u', 'v', 'w', 'x', 'y', 'z'], lowerChar d = d := by
    decide
  rcases lowerChar_cases c with h | h
  · rw [h]
    exact h
  · exact fixlow _ h

theorem isPyWS_lowerChar (c : Char) : isPyWS (lowerChar c) = isPyWS c := by
  unfold lowerChar
  split <;> rfl

theorem spaceTab_le_pyWS : ∀ c, isSpaceTab c = true → isPyWS c = true := by
  intro c h
  simp only [isSpaceTab, Bool.or_eq_true, decide_eq_true_eq] at h
  rcases h with h | h <;> subst h <;> decide

theorem head?_prefix_eq {l1 l2 : List Char} (h : l1 <+: l2) (hne : l1 ≠ []) :
    l1.head? = l2.head? := by
  obtain ⟨r, rfl⟩ := h
  exact (List.head?_append_of_ne_nil _ hne).symm

theorem head_normChars_not_ws (l : List Char) (c : Char)
    (h : (normChars l).head? = some c) : isPyWS c = false := by
  have hne : normChars l ≠ [] := by
    intro h0
    rw [h0] at h
    exact Option.noConfusion h
  have hpre : normChars l <+:
      List.dropWhile isPyWS (collapseRuns isSpaceTab (l.map fun c => if c = nbsp then ' ' else c)) :=
    List.rdropWhile_prefix _ _
  have hh := head?_prefix_eq hpre hne
  have hdw := List.head?_dropWhile_not isPyWS
    (collapseRuns isSpaceTab (l.map fun c => if c = nbsp then ' ' else c))
  rw [← hh, h] at hdw
  exact hdw

theorem head_normLabelChars_not_ws (l : List Char) (c : Char)
    (h : (normLabelChars l).head? = some c) : isPyWS c = false := by
  by_cases hm : List.rdropWhile (fun c => c = ':') ((normChars l).map lowerChar) = []
  · unfold normLabelChars at h
    rw [hm] at h
    exact Option.noConfusion h
  · have h1 := head?_prefix_eq (List.rdropWhile_prefix (fun c => c = ':')
      ((normChars l).map lowerChar)) hm
    cases hl0 : (normChars l).head? with
    | none =>
      rw [List.head?_map, hl0] at h1
      cases hmhd : (List.rdropWhile (fun c => c = ':') ((normChars l).map lowerChar)).head? with
      | none => exact absurd (List.head?_eq_none_iff.mp hmhd) hm
      | some d => rw [hmhd] at h1; exact Option.noConfusion h1
    | some e =>
      rw [List.head?_map, hl0] at h1
      have hew := head_normChars_not_ws l e hl0
      have hdw : isPyWS (lowerChar e) = false := by rw [isPyWS_lowerChar]; exact hew
      have hcoll := head?_collapseRuns isPyWS _ (lowerChar e) h1 hdw
      unfold normLabelChars at h
      rw [hcoll] at h
      have hce : c = lowerChar e := by
        have := h.symm
        simpa using this
      rw [hce]
      exact hdw

theorem last_normLabelChars (l : List Char) (c : Char)
    (h : (normLabelChars l).getLast? = some c) :
    c = ' ' ∨ (isPyWS c = false ∧ ¬c = ':') := by
  unfold normLabelChars at h
  rcases getLast?_collapseRuns _ _ _ h with h' | ⟨h1, h2⟩
  · exact Or.inl h'
  · refine Or.inr ⟨h2, ?_⟩
    have hne : List.rdropWhile (fun c => c = ':') ((normChars l).map lowerChar) ≠ [] := by
      intro h0
      rw [h0] at h1
      exact Option.noConfusion h1
    have hlast := List.getLast?_eq_getLast_of_ne_nil hne
    rw [hlast] at h1
    have heq : (List.rdropWhile (fun c => c = ':') ((normChars l).map lowerChar)).getLast hne
        = c := Option.some.inj h1
    have hnot := List.rdropWhile_last_not (fun c => c = ':') ((normChars l).map lowerChar) hne
    rw [heq] at hnot
    simpa using hnot

theorem lower_fixed_normLabelChars (l : List Char) :
    ∀ c ∈ normLabelChars l, lowerChar c = c := by
  intro c hc
  rcases mem_collapseRuns _ _ _ hc with hm | hsp
  · have hsub := List.IsPrefix.subset
      (List.rdropWhile_prefix (fun c => c = ':') ((normChars l).map lowerChar)) hm
    rcases List.mem_map.mp hsub with ⟨d, _, rfl⟩
    exact lowerChar_idem d
  · rw [hsp]
    rfl

theorem normLabelChars_idem (l : List Char)
    (hy : (normLabelChars l).getLast? ≠ some ' ') :
    normLabelChars (normLabelChars l) = normLabelChars l := by
  have hsp : SparseWS isPyWS (normLabelChars l) :=
    sparse_collapseRuns isPyWS (List.rdropWhile (fun c => c = ':') ((normChars l).map lowerChar))
  have hA1 : (normLabelChars l).map (fun c => if c = nbsp then ' ' else c) = normLabelChars l := by
    apply map_eq_self_of
    intro c hc
    have hcn : c ≠ nbsp := by
      intro hcc
      have hsp' : c = ' ' := hsp.1 c hc (by rw [hcc]; decide)
      rw [hcc] at hsp'
      exact absurd hsp' (by decide)
    simp [hcn]
  have hA2 : collapseRuns isSpaceTab (normLabelChars l) = normLabelChars l :=
    collapseRuns_eq_self _ (by decide) _ (sparse_mono _ _ spaceTab_le_pyWS _ hsp)
  have hA3 : List.dropWhile isPyWS (normLabelChars l) = normLabelChars l := by
    rw [List.dropWhile_eq_self_iff]
    intro hl
    have hne : normLabelChars l ≠ [] := List.ne_nil_of_length_pos hl
    have hx := head_normLabelChars_not_ws l ((normLabelChars l).head hne)
      (List.head?_eq_head hne)
    rw [List.get_mk_zero]
    simp [hx]
  have hA4 : List.rdropWhile isPyWS (normLabelChars l) = normLabelChars l := by
    rw [List.rdropWhile_eq_self_iff]
    intro hl
    have hlast := List.getLast?_eq_getLast_of_ne_nil hl
    rcases last_normLabelChars l _ hlast with h' | ⟨hws, _⟩
    · rw [hlast, h'] at hy
      exact absurd rfl hy
    · simpa using hws
  have hA : normChars (normLabelChars l) = normLabelChars l := by
    unfold normChars stripEnds
    rw [hA1, hA2, hA3, hA4]
  have hB : (normLabelChars l).map lowerChar = normLabelChars l :=
    map_eq_self_of _ _ (lower_fixed_normLabelChars l)
  have hC : List.rdropWhile (fun c => c = ':') (normLabelChars l) = normLabelChars l := by
    rw [List.rdropWhile_eq_self_iff]
    intro hl
    have hlast := List.getLast?_eq_getLast_of_ne_nil hl
    rcases last_normLabelChars l _ hlast with h' | ⟨_, hco⟩
    · rw [h']
      decide
    · simpa using hco
  show collapseRuns isPyWS
      (List.rdropWhile (fun c => c = ':') ((normChars (normLabelChars l)).map lowerChar)) =
    normLabelChars l
  rw [hA, hB, hC]
  exact collapseRuns_eq_self _ (by decide) _ hsp

/-! ### Characterization of the numeric date pattern -/

theorem optStep_eq_true_iff (o : Option (List Char)) (k : List Char → Bool) :
    optStep o k = true ↔ ∃ r, o = some r ∧ k r = true := by
  cases o <;> simp [optStep]

theorem takeExact_eq_some_iff (p : Char → Bool) (n : Nat) (cs r : List Char) :
    takeExact p n cs = some r ↔
      ∃ t, cs = t ++ r ∧ t.length = n ∧ ∀ c ∈ t, p c = true := by
  induction n generalizing cs with
  | zero =>
    constructor
    · intro h
      have : cs = r := Option.some.inj h
      exact ⟨[], by rw [this]; rfl, rfl, by simp⟩
    · rintro ⟨t, heq, hlen, _⟩
      have ht : t = [] := List.length_eq_zero.mp hlen
      subst ht
      rw [heq]
      rfl
  | succ n ih =>
    cases cs with
    | nil =>
      constructor
      · intro h
        exact Option.noConfusion h
      · rintro ⟨t, heq, hlen, _⟩
        cases t with
        | nil => exact absurd hlen.symm (Nat.succ_ne_zero n)
        | cons t0 ts => exact List.noConfusion heq
    | cons c cs' =>
      cases hc : p c with
      | true =>
        rw [show takeExact p (n + 1) (c :: cs') = takeExact p n cs' from by
          simp [takeExact, hc]]
        rw [ih]
        constructor
        · rintro ⟨t, heq, hlen, hall⟩
          refine ⟨c :: t, by rw [heq]; rfl, by simp [hlen], ?_⟩
          intro x hx
          rcases List.mem_cons.mp hx with h' | h'
          · rw [h']
            exact hc
          · exact hall x h'
        · rintro ⟨t, heq, hlen, hall⟩
          cases t with
          | nil => exact absurd hlen.symm (Nat.succ_ne_zero n)
          | cons t0 ts =>
            injection heq with h1 h2
            exact ⟨ts, h2, by simpa using hlen, fun x hx => hall x (List.mem_cons_of_mem _ hx)⟩
      | false =>
        rw [show takeExact p (n + 1) (c :: cs') = none from by simp [takeExact, hc]]
        constructor
        · intro h
          exact Option.noConfusion h
        · rintro ⟨t, heq, hlen, hall⟩
          cases t with
          | nil => exact absurd hlen.symm (Nat.succ_ne_zero n)
          | cons t0 ts =>
            injection heq with h1 h2
            have hpc : p c = true := by
              rw [h1]
              exact hall t0 (List.mem_cons_self _ _)
            rw [hpc] at hc
            exact Bool.noConfusion hc

theorem expectSep_eq_some_iff (cs r : List Char) :
    expectSep cs = some r ↔ ∃ c, cs = c :: r ∧ (c = '-' ∨ c = '/') := by
  cases cs with
  | nil =>
    constructor
    · intro h
      exact Option.noConfusion h
    · rintro ⟨c, heq, _⟩
      exact List.noConfusion heq
  | cons c cs' =>
    cases hc : isSepChar c with
    | true =>
      rw [show expectSep (c :: cs') = some cs' from by simp [expectSep, hc]]
      constructor
      · intro h
        have : cs' = r := Option.some.inj h
        subst this
        refine ⟨c, rfl, ?_⟩
        simpa [isSepChar, Bool.or_eq_true, decide_eq_true_eq] using hc
      · rintro ⟨c', heq, _⟩
        injection heq with h1 h2
        rw [h2]
    | false =>
      rw [show expectSep (c :: cs') = none from by simp [expectSep, hc]]
      constructor
      · intro h
        exact Option.noConfusion h
      · rintro ⟨c', heq, hsep⟩
        injection heq with h1 h2
        have : isSepChar c = true := by
          rw [h1]
          rcases hsep with h' | h' <;> rw [h'] <;> decide
        rw [this] at hc
        exact Bool.noConfusion hc

theorem boundaryAfterChars_iff (r : List Char) :
    boundaryAfterChars r = true ↔
      (r = [] ∨ ∃ b, r.head? = some b ∧ isWordChar b = false) := by
  cases r with
  | nil => simp [boundaryAfterChars]
  | cons c cs =>
    simp only [boundaryAfterChars, Bool.not_eq_true']
    constructor
    · intro h
      exact Or.inr ⟨c, rfl, h⟩
    · rintro (h | ⟨b, hb1, hb2⟩)
      · exact List.noConfusion h
      · have : b = c := by
          have := Option.some.inj hb1.symm
          rw [this]
        rw [← this]
        exact hb2

theorem searchAux_eq_true_iff (m : List Char → Bool) (prev : Option Char) (cs : List Char) :
    searchAux m prev cs = true ↔
      ∃ q suf, cs = q ++ suf ∧
        (match q.getLast? with
          | none => boundaryBeforeChars prev
          | some b => !isWordChar b) = true ∧ m suf = true := by
  induction cs generalizing prev with
  | nil =>
    simp only [searchAux, Bool.and_eq_true]
    constructor
    · rintro ⟨hb, hm⟩
      exact ⟨[], [], rfl, hb, hm⟩
    · rintro ⟨q, suf, heq, hb, hm⟩
      rcases List.append_eq_nil.mp heq.symm with ⟨hq, hsuf⟩
      subst hq
      subst hsuf
      exact ⟨hb, hm⟩
  | cons c rest ih =>
    simp only [searchAux, Bool.or_eq_true, Bool.and_eq_true]
    constructor
    · rintro (⟨hb, hm⟩ | hs)
      · exact ⟨[], c :: rest, rfl, hb, hm⟩
      · rcases (ih (some c)).mp hs with ⟨q, suf, heq, hb, hm⟩
        refine ⟨c :: q, suf, by rw [heq]; rfl, ?_, hm⟩
        cases q with
        | nil => exact hb
        | cons q0 qs =>
          rw [List.getLast?_cons_cons]
          exact hb
    · rintro ⟨q, suf, heq, hb, hm⟩
      cases q with
      | nil =>
        left
        refine ⟨hb, ?_⟩
        have : c :: rest = suf := heq
        rw [this]
        exact hm
      | cons q0 qs =>
        right
        apply (ih (some c)).mpr
        injection heq with h1 h2
        subst h1
        refine ⟨qs, suf, h2, ?_, hm⟩
        cases qs with
        | nil => exact hb
        | cons q1 qs' =>
          rw [List.getLast?_cons_cons] at hb
          exact hb

theorem pat2Tail_iff (a b y : Nat) (cs : List Char) :
    pat2Tail a b y cs = true ↔
      ∃ d c1 m c2 yr rest, cs = d ++ c1 :: (m ++ c2 :: (yr ++ rest)) ∧
        d.length = a ∧ (∀ c ∈ d, isDigitChar c = true) ∧ (c1 = '-' ∨ c1 = '/') ∧
        m.length = b ∧ (∀ c ∈ m, isDigitChar c = true) ∧ (c2 = '-' ∨ c2 = '/') ∧
        yr.length = y ∧ (∀ c ∈ yr, isDigitChar c = true) ∧
        (rest = [] ∨ ∃ bc, rest.head? = some bc ∧ isWordChar bc = false) := by
  unfold pat2Tail
  simp only [optStep_eq_true_iff, takeExact_eq_some_iff, expectSep_eq_some_iff,
    boundaryAfterChars_iff]
  constructor
  · rintro ⟨r1, ⟨d, hcs, hda, hdall⟩, r2, ⟨c1, hr1, hc1⟩, r3, ⟨m, hr2, hmb, hmall⟩,
      r4, ⟨c2, hr3, hc2⟩, r5, ⟨yr, hr4, hyy, hyall⟩, hbd⟩
    refine ⟨d, c1, m, c2, yr, r5, ?_, hda, hdall, hc1, hmb, hmall, hc2, hyy, hyall, hbd⟩
    rw [hcs, hr1, hr2, hr3, hr4]
  · rintro ⟨d, c1, m, c2, yr, rest, hcs, hda, hdall, hc1, hmb, hmall, hc2, hyy, hyall, hbd⟩
    exact ⟨c1 :: (m ++ c2 :: (yr ++ rest)), ⟨d, hcs, hda, hdall⟩,
      m ++ c2 :: (yr ++ rest), ⟨c1, rfl, hc1⟩,
      c2 :: (yr ++ rest), ⟨m, rfl, hmb, hmall⟩,
      yr ++ rest, ⟨c2, rfl, hc2⟩,
      rest, ⟨yr, rfl, hyy, hyall⟩, hbd⟩

/-- Modelled from the claim's wording: somewhere in `s` there is a
substring, delimited by word boundaries, consisting of a 1-2 digit run, a
date separator, a 1-2 digit run, a date separator, and a 2-to-4 digit
run. -/
def NumericDateOccurs (s : List Char) : Prop :=
  ∃ pre d c1 m c2 y rest,
    s = pre ++ (d ++ c1 :: (m ++ c2 :: (y ++ rest))) ∧
    1 ≤ d.length ∧ d.length ≤ 2 ∧ (∀ c ∈ d, isDigitChar c = true) ∧
    (c1 = '-' ∨ c1 = '/') ∧
    1 ≤ m.length ∧ m.length ≤ 2 ∧ (∀ c ∈ m, isDigitChar c = true) ∧
    (c2 = '-' ∨ c2 = '/') ∧
    2 ≤ y.length ∧ y.length ≤ 4 ∧ (∀ c ∈ y, isDigitChar c = true) ∧
    (pre = [] ∨ ∃ b, pre.getLast? = some b ∧ isWordChar b = false) ∧
    (rest = [] ∨ ∃ b, rest.head? = some b ∧ isWordChar b = false)

/-- Claim C7 (amended): the numeric day/month/year pattern of `is_date`
accepts exactly the strings containing a word-boundary-delimited substring
with a 1-2 digit day, a separator, a 1-2 digit month, a separator, and a
year of 2 TO 4 digits: the regex year quantifier spans 2 to 4, so a
3-digit year is also accepted. -/
theorem claim_c7 (s : List Char) :
    regexSearch pat2At s = true ↔ NumericDateOccurs s := by
  unfold regexSearch
  rw [searchAux_eq_true_iff]
  constructor
  · rintro ⟨q, suf, heq, hb, hm⟩
    simp only [pat2At, List.any_eq_true] at hm
    rcases hm with ⟨a, ha, b, hbm, y, hy, hp⟩
    rcases (pat2Tail_iff a b y suf).mp hp with
      ⟨d, c1, m, c2, yr, rest, hsuf, hda, hdall, hc1, hmb, hmall, hc2, hyy, hyall, hbd⟩
    have hmem2 : ∀ n : Nat, n ∈ ([1, 2] : List Nat) → 1 ≤ n ∧ n ≤ 2 := by decide
    have hmem3 : ∀ n : Nat, n ∈ ([2, 3, 4] : List Nat) → 2 ≤ n ∧ n ≤ 4 := by decide
    refine ⟨q, d, c1, m, c2, yr, rest, by rw [heq, hsuf],
      hda ▸ (hmem2 a ha).1, hda ▸ (hmem2 a ha).2, hdall, hc1,
      hmb ▸ (hmem2 b hbm).1, hmb ▸ (hmem2 b hbm).2, hmall, hc2,
      hyy ▸ (hmem3 y hy).1, hyy ▸ (hmem3 y hy).2, hyall, ?_, hbd⟩
    cases hq : q.getLast? with
    | none => exact Or.inl (List.getLast?_eq_none_iff.mp hq)
    | some bq =>
      rw [hq] at hb
      exact Or.inr ⟨bq, rfl, by simpa using hb⟩
  · rintro ⟨pre, d, c1, m, c2, yr, rest, hs, hd1, hd2, hdall, hc1, hm1, hm2, hmall,
      hc2, hy1, hy2, hyall, hbl, hbr⟩
    refine ⟨pre, d ++ c1 :: (m ++ c2 :: (yr ++ rest)), hs, ?_, ?_⟩
    · rcases hbl with hbl | ⟨bq, hb1, hb2⟩
      · rw [hbl]
        rfl
      · rw [hb1]
        simp [hb2]
    · simp only [pat2At, List.any_eq_true]
      refine ⟨d.length, by simp_all; omega, m.length, by simp_all; omega,
        yr.length, by simp_all; omega, ?_⟩
      exact (pat2Tail_iff _ _ _ _).mpr
        ⟨d, c1, m, c2, yr, rest, rfl, rfl, hdall, hc1, rfl, hmall, hc2, rfl, hyall, hbr⟩

/-! ### Claim theorems -/

/-- Claim C2: write-once per document.  During the page-by-page
accumulation of `extract_fields_from_pdf`, a field slot that already holds
a value is never overwritten: the per-extractor merge, the per-page step,
and the whole page loop all preserve any already-set slot, so the first
non-null value obtained is the one retained. -/
theorem claim_c2 :
    (∀ (schema : List FieldSpec) (r vals : Fields) (k w : String), r k = some w →
        mergeFound schema r vals k = some w) ∧
    (∀ (schema : List FieldSpec) (r : Fields) (p : Page) (k w : String), r k = some w →
        processPage schema r p k = some w) ∧
    (∀ (schema : List FieldSpec) (r : Fields) (ps : List Page) (k w : String), r k = some w →
        processPages schema r ps k = some w) :=
  ⟨fun _ _ _ _ _ h => mergeFound_preserve _ _ _ _ _ h,
   fun _ _ _ _ _ h => processPage_preserve _ _ _ _ _ h,
   fun _ _ _ _ _ h => processPages_preserve _ _ _ _ _ h⟩

/-- Witness for C2: page 1 set Site Number to "101"; a later page whose
table suggests "202" does not overwrite it. -/
theorem claim_c2_witness :
    processPages FIELD_SCHEMA (setField initFields "Site Number" (some "101"))
      [⟨[[[some "Site Number", some "202"]]], ""⟩] "Site Number" = some "101" :=
  claim_c2.2.2 FIELD_SCHEMA (setField initFields "Site Number" (some "101"))
    [⟨[[[some "Site Number", some "202"]]], ""⟩] "Site Number" "101" (by decide)

/-- Claim C3: parse-failure sentinel and atomicity.  A document whose
opening raises with message `e` yields a result holding exactly
"ERROR: " ++ e in the "Component ID" slot and `none` everywhere else; and
each row of the assembled output depends only on its own document. -/
theorem claim_c3 :
    (∀ (e k : String),
        extract_fields_from_pdf (Except.error e) FIELD_SCHEMA k =
          if k = "Component ID" then some ("ERROR: " ++ e) else none) ∧
    (∀ (docs : List PdfDoc) (i : Nat),
        (docs.map fun d => extract_fields_from_pdf d FIELD_SCHEMA).get? i =
          (docs.get? i).map fun d => extract_fields_from_pdf d FIELD_SCHEMA) := by
  constructor
  · intro e k
    rfl
  · intro docs i
    simp

/-- Claim C5: early termination.  If after processing a page every schema
field is resolved, the page loop returns that result at once: the
remaining pages (whatever they are) are not visited. -/
theorem claim_c5 (schema : List FieldSpec) (r : Fields) (p : Page) (rest : List Page)
    (h : allResolved schema (processPage schema r p) = true) :
    processPages schema r (p :: rest) = processPage schema r p := by
  unfold processPages
  simp [h]

/-- Claim C1: self-reference guard.  In the table extractor, a
(label, value) pairing whose value key equals the label's key or any
alias's key of a schema field leaves that field untouched; in the line
extractor the same guards make the alias loop move past such a pairing;
and the concrete table row ["Subject ID", "Subject ID"] leaves "Subject"
unresolved. -/
theorem claim_c1 :
    (∀ (found : Fields) (lc vc : String) (spec : FieldSpec), spec ∈ FIELD_SCHEMA →
        (norm_label vc = norm_label lc ∨ sameAsAnyVariant vc spec.variants = true) →
        processRowFields found FIELD_SCHEMA lc vc spec.name = found spec.name) ∧
    (∀ (lines : List String) (spec : FieldSpec) (v val : String) (rest : List String),
        value_after_label_by_lines lines v = some val →
        (norm_label val = norm_label v ∨ sameAsAnyVariant val spec.variants = true) →
        tryVariants lines spec (v :: rest) = tryVariants lines spec rest) ∧
    extract_from_tables [[[some "Subject ID", some "Subject ID"]]] FIELD_SCHEMA "Subject" =
      none := by
  refine ⟨?_, ?_, by decide⟩
  · intro found lc vc spec hmem hg
    show (FIELD_SCHEMA.foldl (fun f s => stepField f s lc vc) found) spec.name = found spec.name
    apply foldl_stepField_preserve
    intro spec' hm'
    by_cases hn : spec'.name = spec.name
    · have heq := field_schema_name_inj spec' hm' spec hmem hn
      subst heq
      rcases hg with hg | hg
      · exact Or.inr (Or.inl hg)
      · exact Or.inr (Or.inr (Or.inl hg))
    · exact Or.inl hn
  · intro lines spec v val rest hval hg
    show (match value_after_label_by_lines lines v with
      | none => tryVariants lines spec rest
      | some val =>
        if val = "" then tryVariants lines spec rest
        else if norm_label val = norm_label v then tryVariants lines spec rest
        else if sameAsAnyVariant val spec.variants then tryVariants lines spec rest
        else if validate spec.ftype val then some val
        else tryVariants lines spec rest) = tryVariants lines spec rest
    rw [hval]
    change (if val = "" then tryVariants lines spec rest
      else if norm_label val = norm_label v then tryVariants lines spec rest
      else if sameAsAnyVariant val spec.variants then tryVariants lines spec rest
      else if validate spec.ftype val then some val
      else tryVariants lines spec rest) = tryVariants lines spec rest
    by_cases h0 : val = ""
    · rw [if_pos h0]
    · rw [if_neg h0]
      by_cases h1 : norm_label val = norm_label v
      · rw [if_pos h1]
      · rw [if_neg h1]
        rcases hg with hg | hg
        · exact absurd hg h1
        · rw [if_pos hg]

/-- Witness for C1: the pairing ("Subject ID", "Subject ID") does not
populate the "Subject" field. -/
theorem claim_c1_witness :
    processRowFields initFields FIELD_SCHEMA "Subject ID" "Subject ID"
      (FieldSpec.mk "Subject" ["Subject", "Subject ID"] FType.alnum).name =
      initFields (FieldSpec.mk "Subject" ["Subject", "Subject ID"] FType.alnum).name :=
  claim_c1.1 initFields "Subject ID" "Subject ID"
    (FieldSpec.mk "Subject" ["Subject", "Subject ID"] FType.alnum) (by decide) (Or.inl rfl)

/-- Claim C4: post-pass sanitizer.  A stored value whose reduction matches
the column name's or any alias's reduction is nulled; a stored value whose
stripped lowercase form is a null token is nulled; any other stored value
is unchanged; an unset cell stays unset. -/
theorem claim_c4 (name : String) (variants : List String) (s : String) :
    (pykey s ∈ pykey name :: variants.map pykey →
        sanitizeCell name variants (some s) = none) ∧
    ((⟨(stripEnds isPyWS s.data).map lowerChar⟩ : String) ∈ NULL_TOKENS →
        sanitizeCell name variants (some s) = none) ∧
    (pykey s ∉ pykey name :: variants.map pykey →
      (⟨(stripEnds isPyWS s.data).map lowerChar⟩ : String) ∉ NULL_TOKENS →
        sanitizeCell name variants (some s) = some s) ∧
    sanitizeCell name variants none = none := by
  refine ⟨?_, ?_, ?_, rfl⟩
  · intro h
    simp [sanitizeCell, h]
  · intro h
    unfold sanitizeCell
    by_cases h1 : pykey s ∈ pykey name :: variants.map pykey
    · simp [h1]
    · simp [h1, h]
  · intro h1 h2
    simp [sanitizeCell, h1, h2]

/-- Witness for C4: a "Cohort" cell holding its own (lowercased) column
name is nulled by the sanitizer. -/
theorem claim_c4_witness :
    sanitizeCell "Cohort" ["Cohort", "Cohort Assignment"] (some "cohort") = none :=
  (claim_c4 "Cohort" ["Cohort", "Cohort Assignment"] "cohort").1 (by decide)

/-- Claim C6: header-row skipping.  A table row whose first non-empty cell
normalizes to "item", "field", or "parameter" populates no schema field,
whether or not that cell is preceded by absent or empty cells. -/
theorem claim_c6 (found : Fields) (row : Row) (c : String)
    (hfind : (rowCells row).find? (fun x => x ≠ "") = some c)
    (hdr : norm_label c = "item" ∨ norm_label c = "field" ∨ norm_label c = "parameter") :
    ∀ k, processRow found FIELD_SCHEMA row k = found k := by
  intro k
  have hvars : ∀ s ∈ FIELD_SCHEMA, ∀ v ∈ s.variants,
      norm_label v ≠ "item" ∧ norm_label v ≠ "field" ∧ norm_label v ≠ "parameter" := by
    decide
  unfold processRow
  by_cases hre : row.isEmpty = true
  · rw [if_pos hre]
  · rw [if_neg hre]
    by_cases hlen : (rowCells row).length < 1
    · rw [if_pos hlen]
    · rw [if_neg hlen]
      by_cases hh : lowerStr (norm ((rowCells row).headD "")) = "item" ∨
          lowerStr (norm ((rowCells row).headD "")) = "field" ∨
          lowerStr (norm ((rowCells row).headD "")) = "parameter"
      · rw [if_pos hh]
      · rw [if_neg hh, hfind]
        cases hf2 : (rowCells row).reverse.find? (fun c => c ≠ "") with
        | none => rfl
        | some vc =>
          show (FIELD_SCHEMA.foldl (fun f s => stepField f s c vc) found) k = found k
          apply foldl_stepField_preserve
          intro spec' hm'
          refine Or.inr (Or.inr (Or.inr ?_))
          have hnotmem : ∀ v ∈ spec'.variants, ¬ norm_label c = norm_label v := by
            intro v hv heq
            rcases hvars spec' hm' v hv with ⟨n1, n2, n3⟩
            rcases hdr with hd | hd | hd <;> rw [heq] at hd
            · exact n1 hd
            · exact n2 hd
            · exact n3 hd
          simp only [label_matches, List.any_eq_false, decide_eq_true_eq]
          exact fun v hv => hnotmem v hv

/-- Witness for C6: a header row whose "Item" cell is preceded by an empty
cell populates nothing. -/
theorem claim_c6_witness :
    processRow initFields FIELD_SCHEMA [some "", some "Item", some "101"] "Site Number" =
      initFields "Site Number" :=
  claim_c6 initFields [some "", some "Item", some "101"] "Item" (by decide)
    (Or.inl (by decide)) "Site Number"

/-- Counterexample to C7 as stated: "1-2-345" is accepted by `is_date`,
and only the numeric pattern matches it (the month-name and ISO patterns
do not), although the numeric substring has a 3-digit year — so the
numeric pattern does accept a year of exactly 3 digits. -/
theorem claim_c7_counterexample :
    is_date "1-2-345" = true ∧
    regexSearch pat2At (norm "1-2-345").data = true ∧
    regexSearch pat1At (norm "1-2-345").data = false ∧
    regexSearch pat3At (norm "1-2-345").data = false :=
  ⟨by decide, by decide, by decide, by decide⟩

/-- Witness for C7 (amended): the accepted input "1-2-345" does contain a
numeric date occurrence in the characterized sense. -/
theorem claim_c7_witness : NumericDateOccurs ("1-2-345".data) :=
  (claim_c7 ("1-2-345".data)).mp (by decide)

/-- Counterexample to C8 as stated: the input "no  value to display"
(doubled internal space) normalizes to exactly the sentinel phrase, yet
`is_nullish` returns false, because the code checks the stripped
lowercased value without collapsing whitespace. -/
theorem claim_c8_counterexample :
    norm "no  value to display" = "no value to display" ∧
    startsWithChars (norm "no  value to display").data noValuePhrase.data = true ∧
    is_nullish "no  value to display" = false := by
  refine ⟨by decide, by decide, by decide⟩

/-- Claim C8 (amended): `is_nullish` returns true iff the value, stripped
of surrounding whitespace, is empty or its lowercased form begins with the
sentinel phrase; no non-breaking-space replacement or internal whitespace
collapsing is applied. -/
theorem claim_c8 (s : String) :
    is_nullish s = true ↔
      (pyStrip s = "" ∨
        startsWithChars ((pyStrip s).data.map lowerChar) noValuePhrase.data = true) := by
  unfold is_nullish
  constructor
  · intro h
    simp only [Bool.or_eq_true, decide_eq_true_eq] at h
    rcases h with (h | h) | h
    · left
      rw [h]
      rfl
    · left
      exact h
    · right
      exact h
  · intro h
    simp only [Bool.or_eq_true, decide_eq_true_eq]
    rcases h with h | h
    · exact Or.inl (Or.inr h)
    · exact Or.inr h

/-- Witness for C8 (amended): a whitespace-only value is nullish. -/
theorem claim_c8_witness : is_nullish " " = true :=
  (claim_c8 " ").mpr (Or.inl (by decide))

/-- Counterexample to C9 as stated: `norm_label` is not idempotent, since
stripping trailing colons can expose a trailing space that the final
whitespace collapse keeps: `norm_label "a :" = "a "` while
`norm_label "a " = "a"`. -/
theorem claim_c9_counterexample :
    norm_label (norm_label "a :") ≠ norm_label "a :" := by decide

/-- Claim C9 (amended): `norm_label` is idempotent on every string whose
normalized label does not end in a space (the only way a second
application can differ is the trailing space exposed by colon
stripping). -/
theorem claim_c9 (s : String) (hy : (norm_label s).data.getLast? ≠ some ' ') :
    norm_label (norm_label s) = norm_label s := by
  show (⟨normLabelChars (normLabelChars s.data)⟩ : String) = ⟨normLabelChars s.data⟩
  exact congrArg (fun l => (⟨l⟩ : String)) (normLabelChars_idem s.data hy)

/-- Witness for C9 (amended): "Site No:" normalizes to "site no", which
has no trailing space, and a second normalization leaves it unchanged. -/
theorem claim_c9_witness :
    norm_label (norm_label "Site No:") = norm_label "Site No:" :=
  claim_c9 "Site No:" (by decide)

/-- Claim C10: implicit extractor output invariant.  For the fixed
schema, every entry either extractor returns is unset or a non-empty,
non-nullish string accepted by that field's declared validator; in
particular neither extractor ever returns the empty string. -/
theorem claim_c10 :
    ∀ spec ∈ FIELD_SCHEMA, ∀ (tables : List (List Row)) (text : String) (v : String),
      (extract_from_tables tables FIELD_SCHEMA spec.name = some v →
        v ≠ "" ∧ is_nullish v = false ∧ validate spec.ftype v = true) ∧
      (extract_from_lines text FIELD_SCHEMA spec.name = some v →
        v ≠ "" ∧ is_nullish v = false ∧ validate spec.ftype v = true) := by
  intro spec hmem tables text v
  constructor
  · intro hv
    exact extract_from_tables_inv FIELD_SCHEMA field_schema_name_inj tables spec hmem v hv
  · intro hv
    exact extract_from_lines_inv FIELD_SCHEMA field_schema_name_inj text spec hmem v hv

/-- Witness for C10: the value "101" extracted for "Site Number" from a
concrete table is non-empty, non-nullish, and a valid digits value. -/
theorem claim_c10_witness :
    "101" ≠ "" ∧ is_nullish "101" = false ∧ validate FType.digits "101" = true :=
  (claim_c10
      (FieldSpec.mk "Site Number" ["Site Number", "Site No", "Site ID", "Derived Site ID"]
        FType.digits)
      (by decide) [[[some "Site Number", some "101"]]] "" "101").1 (by decide)

/-- Witness for C5: with every field already resolved after the first
page, a trailing page full of conflicting content is not visited. -/
theorem claim_c5_witness :
    processPages FIELD_SCHEMA (fun _ => some "x")
      [⟨[], ""⟩, ⟨[[[some "Age", some "5"]]], "Age: 7"⟩] "Age" =
      processPage FIELD_SCHEMA (fun _ => some "x") ⟨[], ""⟩ "Age" :=
  congrFun
    (claim_c5 FIELD_SCHEMA (fun _ => some "x") ⟨[], ""⟩ [⟨[[[some "Age", some "5"]]], "Age: 7"⟩]
      (by decide))
    "Age"

end Extract
